import Mathlib

/-!
Verification of the expression core of the CAS repository (`cas.py`).

The Python source represents mathematical expressions as a class hierarchy
rooted at `Expr`; every node stores a `description` string and a tuple of
child `Expr` nodes, and the subclasses `Var`, `Const`, `Add`, `Mul`, `Div`,
`Pow`, `Neg`, `Func`, `Sin`, `Cos`, `Exp`, `Log` refine construction,
equality, differentiation, simplification and factor enumeration.

This file gives a shallow embedding of that data model and of the operations
`__eq__`, `__hash__`, `__neg__`, `derivative`, `simplified` and `factors`,
and proves or refutes the specification claims about them.  Numeric constant
values are modelled by `Int` (Python's exact integers) in the primary model
`Expr`, which is the exact-integer-constant fragment of the source; the
companion model `FExpr`/`PyVal` at the end of the file extends the value
domain by the float `nan` (on which Python's `+` and `*` are still exact),
which is needed to express the inputs that defeat zero absorption in
`Mul.simplified`.
-/

namespace CAS

/-- Expression trees with exact-integer constant values.  One constructor
per Python class.  `Const` carries the `value` (`Option Int`, `none` when
the Python value is `None`) and the `name` (`Option String`), in that
order, matching `Const.__init__(value, name)`; the source also admits
float/complex values, for which see `FExpr` below.
`Add` and `Mul` are variadic (`*args` in Python), `Div`/`Pow` binary,
`Neg`/`Func`/`Sin`/`Cos`/`Exp`/`Log` unary; `Func` also carries its name. -/
inductive Expr : Type where
  | Var : String → Expr
  | Const : Option Int → Option String → Expr
  | Add : List Expr → Expr
  | Mul : List Expr → Expr
  | Div : Expr → Expr → Expr
  | Pow : Expr → Expr → Expr
  | Neg : Expr → Expr
  | Func : String → Expr → Expr
  | Sin : Expr → Expr
  | Cos : Expr → Expr
  | Exp : Expr → Expr
  | Log : Expr → Expr

/-- The `description` attribute set by each Python `__init__`
(`"var"`, `"const"`, `"+"`, `"*"`, `"/"`, `"^"`, `"neg"`, or the
function's name for `Func` and its named subclasses). -/
def descr : Expr → String
  | .Var _ => "var"
  | .Const _ _ => "const"
  | .Add _ => "+"
  | .Mul _ => "*"
  | .Div _ _ => "/"
  | .Pow _ _ => "^"
  | .Neg _ => "neg"
  | .Func n _ => n
  | .Sin _ => "sin"
  | .Cos _ => "cos"
  | .Exp _ => "exp"
  | .Log _ => "log"

/-- The `arguments` tuple of a node (empty for the leaves `Var` and `Const`). -/
def argsOf : Expr → List Expr
  | .Var _ => []
  | .Const _ _ => []
  | .Add l => l
  | .Mul l => l
  | .Div a b => [a, b]
  | .Pow a b => [a, b]
  | .Neg a => [a]
  | .Func _ a => [a]
  | .Sin a => [a]
  | .Cos a => [a]
  | .Exp a => [a]
  | .Log a => [a]

mutual

/-- Size measure used for well-founded recursion over `Expr`. -/
def esize : Expr → Nat
  | .Var _ => 1
  | .Const _ _ => 1
  | .Add l => 1 + esizeL l
  | .Mul l => 1 + esizeL l
  | .Div a b => 3 + esize a + esize b
  | .Pow a b => 3 + esize a + esize b
  | .Neg a => 2 + esize a
  | .Func _ a => 2 + esize a
  | .Sin a => 2 + esize a
  | .Cos a => 2 + esize a
  | .Exp a => 2 + esize a
  | .Log a => 2 + esize a

/-- Total size of a list of expressions (one unit per list cell). -/
def esizeL : List Expr → Nat
  | [] => 0
  | a :: rest => 1 + esize a + esizeL rest

end

theorem esizeL_cons (a : Expr) (l : List Expr) :
    esizeL (a :: l) = 1 + esize a + esizeL l := rfl

theorem esize_pos (e : Expr) : 0 < esize e := by
  cases e <;> (simp only [esize]; omega)

theorem esize_mem_lt {x : Expr} {l : List Expr} (h : x ∈ l) : esize x < esizeL l := by
  induction l with
  | nil => cases h
  | cons a rest ih =>
    rw [esizeL_cons]
    rcases List.mem_cons.mp h with rfl | h'
    · omega
    · have := ih h'
      omega

theorem esizeL_argsOf_lt (e : Expr) : esizeL (argsOf e) < esize e := by
  cases e <;> (simp only [argsOf, esize, esizeL]; omega)

mutual

/-- Boolean structural (constructor-level) equality of expression trees. -/
def ebeq : Expr → Expr → Bool
  | .Var n, .Var m => n == m
  | .Const v s, .Const w t => v == w && s == t
  | .Add l, .Add m => ebeqL l m
  | .Mul l, .Mul m => ebeqL l m
  | .Div a b, .Div c d => ebeq a c && ebeq b d
  | .Pow a b, .Pow c d => ebeq a c && ebeq b d
  | .Neg a, .Neg b => ebeq a b
  | .Func n a, .Func m b => n == m && ebeq a b
  | .Sin a, .Sin b => ebeq a b
  | .Cos a, .Cos b => ebeq a b
  | .Exp a, .Exp b => ebeq a b
  | .Log a, .Log b => ebeq a b
  | _, _ => false

/-- Boolean structural equality of lists of expression trees. -/
def ebeqL : List Expr → List Expr → Bool
  | [], [] => true
  | a :: l, b :: m => ebeq a b && ebeqL l m
  | _, _ => false

end

theorem ebeq_iff : ∀ a b : Expr, ebeq a b = true ↔ a = b := by
  have main : ∀ n : Nat, ∀ a b : Expr, esize a ≤ n → (ebeq a b = true ↔ a = b) := by
    intro n
    induction n with
    | zero =>
      intro a _ ha
      have := esize_pos a
      omega
    | succ n ih =>
      have ihL : ∀ l m : List Expr, esizeL l ≤ n → (ebeqL l m = true ↔ l = m) := by
        intro l
        induction l with
        | nil => intro m _; cases m <;> simp [ebeqL]
        | cons a rest ihrest =>
          intro m hm
          have hsz : esizeL (a :: rest) = 1 + esize a + esizeL rest := rfl
          cases m with
          | nil => simp [ebeqL]
          | cons b mrest =>
            have ha : esize a ≤ n := by omega
            have hr : esizeL rest ≤ n := by omega
            simp [ebeqL, ih a b ha, ihrest mrest hr]
      intro a b ha
      cases a with
      | Var s => cases b <;> simp [ebeq]
      | Const v s => cases b <;> simp [ebeq]
      | Add l =>
        have hsz : esize (Expr.Add l) = 1 + esizeL l := rfl
        have hl : ∀ m, ebeqL l m = true ↔ l = m := fun m => ihL l m (by omega)
        cases b <;> simp [ebeq, hl]
      | Mul l =>
        have hsz : esize (Expr.Mul l) = 1 + esizeL l := rfl
        have hl : ∀ m, ebeqL l m = true ↔ l = m := fun m => ihL l m (by omega)
        cases b <;> simp [ebeq, hl]
      | Div a1 a2 =>
        have hsz : esize (Expr.Div a1 a2) = 3 + esize a1 + esize a2 := rfl
        have h1 : ∀ c, ebeq a1 c = true ↔ a1 = c := fun c => ih a1 c (by omega)
        have h2 : ∀ c, ebeq a2 c = true ↔ a2 = c := fun c => ih a2 c (by omega)
        cases b <;> simp [ebeq, h1, h2]
      | Pow a1 a2 =>
        have hsz : esize (Expr.Pow a1 a2) = 3 + esize a1 + esize a2 := rfl
        have h1 : ∀ c, ebeq a1 c = true ↔ a1 = c := fun c => ih a1 c (by omega)
        have h2 : ∀ c, ebeq a2 c = true ↔ a2 = c := fun c => ih a2 c (by omega)
        cases b <;> simp [ebeq, h1, h2]
      | Neg a1 =>
        have hsz : esize (Expr.Neg a1) = 2 + esize a1 := rfl
        have h1 : ∀ c, ebeq a1 c = true ↔ a1 = c := fun c => ih a1 c (by omega)
        cases b <;> simp [ebeq, h1]
      | Func s a1 =>
        have hsz : esize (Expr.Func s a1) = 2 + esize a1 := rfl
        have h1 : ∀ c, ebeq a1 c = true ↔ a1 = c := fun c => ih a1 c (by omega)
        cases b <;> simp [ebeq, h1]
      | Sin a1 =>
        have hsz : esize (Expr.Sin a1) = 2 + esize a1 := rfl
        have h1 : ∀ c, ebeq a1 c = true ↔ a1 = c := fun c => ih a1 c (by omega)
        cases b <;> simp [ebeq, h1]
      | Cos a1 =>
        have hsz : esize (Expr.Cos a1) = 2 + esize a1 := rfl
        have h1 : ∀ c, ebeq a1 c = true ↔ a1 = c := fun c => ih a1 c (by omega)
        cases b <;> simp [ebeq, h1]
      | Exp a1 =>
        have hsz : esize (Expr.Exp a1) = 2 + esize a1 := rfl
        have h1 : ∀ c, ebeq a1 c = true ↔ a1 = c := fun c => ih a1 c (by omega)
        cases b <;> simp [ebeq, h1]
      | Log a1 =>
        have hsz : esize (Expr.Log a1) = 2 + esize a1 := rfl
        have h1 : ∀ c, ebeq a1 c = true ↔ a1 = c := fun c => ih a1 c (by omega)
        cases b <;> simp [ebeq, h1]
  intro a b
  exact main (esize a) a b le_rfl

instance : DecidableEq Expr := fun a b =>
  decidable_of_iff (ebeq a b = true) (ebeq_iff a b)

/-- A constructor argument in Python is either a raw numeric value or an
`Expr`; `Expr.__init__` promotes raw values via `Const(arg)`. -/
def promote : Int ⊕ Expr → Expr
  | .inl n => .Const (some n) none
  | .inr e => e

/-- The Python `Add(*args)` constructor applied to mixed raw/expression
arguments (promotion performed by `Expr.__init__`). -/
def AddC (l : List (Int ⊕ Expr)) : Expr := .Add (l.map promote)

/-- The Python `Mul(*args)` constructor applied to mixed raw/expression
arguments. -/
def MulC (l : List (Int ⊕ Expr)) : Expr := .Mul (l.map promote)

/-- `Expr.__neg__` and its override `Const.__neg__`: a `Const` whose `name`
is `None` is folded to `Const(-value)` (failing when the value is also
absent, which `Const.__init__` rules out); every other node is wrapped in a
`Neg` node.  `none` models the `TypeError` raised on the unconstructible
`Const(None, None)`. -/
def pyNeg : Expr → Option Expr
  | .Const v none => v.map fun k => Expr.Const (some (-k)) none
  | e => some (.Neg e)

mutual

/-- `derivative(node, var)` for each Python class; the second argument is
the name of the `Var` passed as `var`.  `Var.derivative` returns the raw
Python integer `int(self.name == var.name)` (modelled by `Sum.inl`); every
other rule returns an expression node (`Sum.inr`).  `Pow.derivative`
delegates to `Exp(Log(base) * exponent).derivative(var)`, which is unfolded
here into the expression that call computes. -/
def derivative : Expr → String → Int ⊕ Expr
  | .Var n, v => .inl (if n = v then 1 else 0)
  | .Const _ _, _ => .inr (.Const (some 0) none)
  | .Add args, v => .inr (.Add (derivativeArgs args v))
  | .Mul args, v => .inr (.Add (mulDerivTerms [] args v))
  | .Div a b, v =>
      .inr (.Div
        (.Add [.Mul [b, promote (derivative a v)],
               .Neg (.Mul [a, promote (derivative b v)])])
        (.Pow b (.Const (some 2) none)))
  | .Pow a b, v =>
      .inr (.Mul
        [.Exp (.Mul [.Log a, b]),
         .Add [.Mul [.Div (promote (derivative a v)) a, b],
               .Mul [.Log a, promote (derivative b v)]]])
  | .Neg a, v => .inr (.Neg (promote (derivative a v)))
  | .Func n a, v => .inr (.Mul [.Func (n ++ "'") a, promote (derivative a v)])
  | .Sin a, v => .inr (.Mul [.Cos a, promote (derivative a v)])
  | .Cos a, v => .inr (.Mul [.Neg (.Sin a), promote (derivative a v)])
  | .Exp a, v => .inr (.Mul [.Exp a, promote (derivative a v)])
  | .Log a, v => .inr (.Div (promote (derivative a v)) a)

/-- `[arg.derivative(var) for arg in arguments]`, each result promoted by
the receiving constructor. -/
def derivativeArgs : List Expr → String → List Expr
  | [], _ => []
  | a :: rest, v => promote (derivative a v) :: derivativeArgs rest v

/-- The terms of the generalized product rule of `Mul.derivative`:
`Mul(*args[:i], args[i].derivative(var), *args[i+1:])` for each `i`;
`pre` holds the already-passed prefix `args[:i]`. -/
def mulDerivTerms : List Expr → List Expr → String → List Expr
  | _, [], _ => []
  | pre, a :: rest, v =>
      .Mul (pre ++ [promote (derivative a v)] ++ rest) ::
        mulDerivTerms (pre ++ [a]) rest v

end

/-- One step of the constant-folding loop of `Add.simplified`, applied to
the argument of a *nested* `Add` child (the variable `secArg` in the
source): a value-carrying `Const` is added into the accumulator, every
other node is appended to the term list. -/
def addInnerStep (acc : List Expr × Int) (s : Expr) : List Expr × Int :=
  match s with
  | .Const (some v) _ => (acc.1, acc.2 + v)
  | s => (acc.1 ++ [s], acc.2)

/-- One step of the main loop of `Add.simplified` over a simplified child
`arg`: a value-carrying `Const` is folded into the accumulator, a nested
`Add` has its own arguments spliced in via `addInnerStep`, everything else
(including a named `Const`) is appended to the term list. -/
def addStep (acc : List Expr × Int) (arg : Expr) : List Expr × Int :=
  match arg with
  | .Const (some v) _ => (acc.1, acc.2 + v)
  | .Add secs => secs.foldl addInnerStep acc
  | e => (acc.1 ++ [e], acc.2)

/-- The tail of `Add.simplified`: append `Const(const)` when the
accumulated sum is nonzero, then collapse the empty list to `Const(0)` and
a singleton to its element. -/
def addFinish (p : List Expr × Int) : Expr :=
  match (if p.2 = 0 then p.1 else p.1 ++ [.Const (some p.2) none]) with
  | [] => .Const (some 0) none
  | [a] => a
  | args => .Add args

/-- One step of the inner flattening loop of `Mul.simplified`. -/
def mulInnerStep (acc : List Expr × Int) (s : Expr) : List Expr × Int :=
  match s with
  | .Const (some v) _ => (acc.1, acc.2 * v)
  | s => (acc.1 ++ [s], acc.2)

/-- One step of the main loop of `Mul.simplified`. -/
def mulStep (acc : List Expr × Int) (arg : Expr) : List Expr × Int :=
  match arg with
  | .Const (some v) _ => (acc.1, acc.2 * v)
  | .Mul secs => secs.foldl mulInnerStep acc
  | e => (acc.1 ++ [e], acc.2)

/-- The tail of `Mul.simplified`: `Const(0)` when the accumulated product
is zero; otherwise append `Const(const)` when the product differs from 1,
collapse the empty list to `Const(1)` and a singleton to its element. -/
def mulFinish (p : List Expr × Int) : Expr :=
  if p.2 = 0 then .Const (some 0) none
  else
    match (if p.2 = 1 then p.1 else p.1 ++ [.Const (some p.2) none]) with
    | [] => .Const (some 1) none
    | [a] => a
    | args => .Mul args

mutual

/-- `simplified()`: `Add.simplified` and `Mul.simplified` flatten and
constant-fold their simplified children; `Expr.simplified` — inherited by
`Var`, `Const`, `Div`, `Pow`, `Neg`, `Func`, `Sin`, `Cos`, `Exp` and
`Log` — returns `self` unchanged. -/
def simplified : Expr → Expr
  | .Add args => addFinish ((simplifiedArguments args).foldl addStep ([], 0))
  | .Mul args => mulFinish ((simplifiedArguments args).foldl mulStep ([], 1))
  | .Var n => .Var n
  | .Const v s => .Const v s
  | .Div a b => .Div a b
  | .Pow a b => .Pow a b
  | .Neg a => .Neg a
  | .Func n a => .Func n a
  | .Sin a => .Sin a
  | .Cos a => .Cos a
  | .Exp a => .Exp a
  | .Log a => .Log a

/-- `Expr.simplifiedArguments`: the list of simplified children. -/
def simplifiedArguments : List Expr → List Expr
  | [] => []
  | a :: rest => simplified a :: simplifiedArguments rest

end

mutual

/-- `factors()`: an integer-valued `Const` yields the `Const`-wrapped
results of the trial-division loop `for i in range(1, value + 1)`; `Add`
intersects and `Mul` unites the children's factor sets (empty for no
children); every other node — including a named `Const`, whose value
`None` is not an `int` — yields the singleton of itself. -/
def factors : Expr → Finset Expr
  | .Const (some v) _ =>
      ((((List.range v.toNat).map (fun k : Nat => ((k : Int) + 1))).filter
          (fun i => v % i == 0)).map
        (fun i => Expr.Const (some i) none)).toFinset
  | .Const none n => {Expr.Const none n}
  | .Var n => {Expr.Var n}
  | .Add args =>
      match factorsArgs args with
      | [] => ∅
      | s :: ss => (s :: ss).foldl (· ∩ ·) s
  | .Mul args =>
      match factorsArgs args with
      | [] => ∅
      | s :: ss => (s :: ss).foldl (· ∪ ·) s
  | .Div a b => {Expr.Div a b}
  | .Pow a b => {Expr.Pow a b}
  | .Neg a => {Expr.Neg a}
  | .Func n a => {Expr.Func n a}
  | .Sin a => {Expr.Sin a}
  | .Cos a => {Expr.Cos a}
  | .Exp a => {Expr.Exp a}
  | .Log a => {Expr.Log a}

/-- `[arg.factors() for arg in arguments]`. -/
def factorsArgs : List Expr → List (Finset Expr)
  | [] => []
  | a :: rest => factors a :: factorsArgs rest

end

/-- The data consumed by the Python `__hash__` chain: `Var` hashes its
name, `Const` hashes the pair `(name, value)`, every other node hashes the
tuple `(description, *arguments)` with the children hashed recursively.
Python's hash is a fixed function of this tree, so equal `HKey`s give equal
hashes; the specification's structural-equality classes (variant tag plus
ordered children, `Var` by name, `Const` by name and value) are exactly
equality of these trees. -/
inductive HKey : Type where
  | str : String → HKey
  | pair : Option String → Option Int → HKey
  | node : String → List HKey → HKey

mutual

/-- The hash-input tree of a node (see `HKey`). -/
def hashKey : Expr → HKey
  | .Var n => .str n
  | .Const v s => .pair s v
  | .Add l => .node "+" (hashKeyArgs l)
  | .Mul l => .node "*" (hashKeyArgs l)
  | .Div a b => .node "/" [hashKey a, hashKey b]
  | .Pow a b => .node "^" [hashKey a, hashKey b]
  | .Neg a => .node "neg" [hashKey a]
  | .Func n a => .node n [hashKey a]
  | .Sin a => .node "sin" [hashKey a]
  | .Cos a => .node "cos" [hashKey a]
  | .Exp a => .node "exp" [hashKey a]
  | .Log a => .node "log" [hashKey a]

/-- Hash-input trees of a list of children. -/
def hashKeyArgs : List Expr → List HKey
  | [] => []
  | a :: rest => hashKey a :: hashKeyArgs rest

end

mutual

/-- Python `a == b` on two nodes.  `Var.__eq__` and `Const.__eq__` assert
`isinstance(other, Var)` resp. `isinstance(other, Const)`, so comparing a
`Var` or `Const` on the left against any other variant raises
`AssertionError` (modelled by `none`).  All other classes inherit
`Expr.__eq__`, which compares the `arguments` tuples (length first, then
elementwise with short-circuit, as CPython's tuple comparison does) and
then the `description` strings.  A raised child comparison propagates. -/
def pyEq : Expr → Expr → Option Bool
  | .Var n, .Var m => some (n == m)
  | .Var _, _ => none
  | .Const v s, .Const w t => some (s == t && v == w)
  | .Const _ _, _ => none
  | a, b =>
      if (argsOf a).length = (argsOf b).length then
        match pyEqArgs (argsOf a) (argsOf b) with
        | none => none
        | some false => some false
        | some true => some (descr a == descr b)
      else some false
termination_by a b => esize a + esize b
decreasing_by
  simp_wf
  have h1 := esizeL_argsOf_lt a
  have h2 := esizeL_argsOf_lt b
  omega

/-- Elementwise comparison of two equally long `arguments` tuples with
short-circuiting, propagating a raised `AssertionError` as `none`. -/
def pyEqArgs : List Expr → List Expr → Option Bool
  | [], [] => some true
  | x :: xs, y :: ys =>
      match pyEq x y with
      | none => none
      | some false => some false
      | some true => pyEqArgs xs ys
  | _, _ => some false
termination_by xs ys => esizeL xs + esizeL ys + 1
decreasing_by
  all_goals (simp_wf; simp only [esizeL_cons]; omega)

end


/-- Case analysis of `addInnerStep`: a value-carrying `Const` is folded
into the sum, anything else is appended. -/
theorem addInnerStep_eq (acc : List Expr × Int) (s : Expr) :
    (∃ v n, s = .Const (some v) n ∧ addInnerStep acc s = (acc.1, acc.2 + v)) ∨
    ((∀ v n, s ≠ .Const (some v) n) ∧ addInnerStep acc s = (acc.1 ++ [s], acc.2)) := by
  cases s with
  | Const v n =>
    cases v with
    | some k => exact Or.inl ⟨k, n, rfl, rfl⟩
    | none => exact Or.inr ⟨(fun _ _ h => by simp at h), rfl⟩
  | Var n => exact Or.inr ⟨(fun _ _ h => by cases h), rfl⟩
  | Add l => exact Or.inr ⟨(fun _ _ h => by cases h), rfl⟩
  | Mul l => exact Or.inr ⟨(fun _ _ h => by cases h), rfl⟩
  | Div a b => exact Or.inr ⟨(fun _ _ h => by cases h), rfl⟩
  | Pow a b => exact Or.inr ⟨(fun _ _ h => by cases h), rfl⟩
  | Neg a => exact Or.inr ⟨(fun _ _ h => by cases h), rfl⟩
  | Func f a => exact Or.inr ⟨(fun _ _ h => by cases h), rfl⟩
  | Sin a => exact Or.inr ⟨(fun _ _ h => by cases h), rfl⟩
  | Cos a => exact Or.inr ⟨(fun _ _ h => by cases h), rfl⟩
  | Exp a => exact Or.inr ⟨(fun _ _ h => by cases h), rfl⟩
  | Log a => exact Or.inr ⟨(fun _ _ h => by cases h), rfl⟩

/-- Case analysis of `mulInnerStep`. -/
theorem mulInnerStep_eq (acc : List Expr × Int) (s : Expr) :
    (∃ v n, s = .Const (some v) n ∧ mulInnerStep acc s = (acc.1, acc.2 * v)) ∨
    ((∀ v n, s ≠ .Const (some v) n) ∧ mulInnerStep acc s = (acc.1 ++ [s], acc.2)) := by
  cases s with
  | Const v n =>
    cases v with
    | some k => exact Or.inl ⟨k, n, rfl, rfl⟩
    | none => exact Or.inr ⟨(fun _ _ h => by simp at h), rfl⟩
  | Var n => exact Or.inr ⟨(fun _ _ h => by cases h), rfl⟩
  | Add l => exact Or.inr ⟨(fun _ _ h => by cases h), rfl⟩
  | Mul l => exact Or.inr ⟨(fun _ _ h => by cases h), rfl⟩
  | Div a b => exact Or.inr ⟨(fun _ _ h => by cases h), rfl⟩
  | Pow a b => exact Or.inr ⟨(fun _ _ h => by cases h), rfl⟩
  | Neg a => exact Or.inr ⟨(fun _ _ h => by cases h), rfl⟩
  | Func f a => exact Or.inr ⟨(fun _ _ h => by cases h), rfl⟩
  | Sin a => exact Or.inr ⟨(fun _ _ h => by cases h), rfl⟩
  | Cos a => exact Or.inr ⟨(fun _ _ h => by cases h), rfl⟩
  | Exp a => exact Or.inr ⟨(fun _ _ h => by cases h), rfl⟩
  | Log a => exact Or.inr ⟨(fun _ _ h => by cases h), rfl⟩

/-- Case analysis of `addStep`: fold a valued `Const`, splice a nested
`Add`, append anything else. -/
theorem addStep_eq (acc : List Expr × Int) (arg : Expr) :
    (∃ v n, arg = .Const (some v) n ∧ addStep acc arg = (acc.1, acc.2 + v)) ∨
    (∃ secs, arg = .Add secs ∧ addStep acc arg = secs.foldl addInnerStep acc) ∨
    ((∀ v n, arg ≠ .Const (some v) n) ∧ (∀ secs, arg ≠ .Add secs) ∧
      addStep acc arg = (acc.1 ++ [arg], acc.2)) := by
  cases arg with
  | Const v n =>
    cases v with
    | some k => exact Or.inl ⟨k, n, rfl, rfl⟩
    | none =>
      exact Or.inr (Or.inr ⟨(fun _ _ h => by simp at h), (fun _ h => by cases h), rfl⟩)
  | Add l => exact Or.inr (Or.inl ⟨l, rfl, rfl⟩)
  | Var n => exact Or.inr (Or.inr ⟨(fun _ _ h => by cases h), (fun _ h => by cases h), rfl⟩)
  | Mul l => exact Or.inr (Or.inr ⟨(fun _ _ h => by cases h), (fun _ h => by cases h), rfl⟩)
  | Div a b => exact Or.inr (Or.inr ⟨(fun _ _ h => by cases h), (fun _ h => by cases h), rfl⟩)
  | Pow a b => exact Or.inr (Or.inr ⟨(fun _ _ h => by cases h), (fun _ h => by cases h), rfl⟩)
  | Neg a => exact Or.inr (Or.inr ⟨(fun _ _ h => by cases h), (fun _ h => by cases h), rfl⟩)
  | Func f a => exact Or.inr (Or.inr ⟨(fun _ _ h => by cases h), (fun _ h => by cases h), rfl⟩)
  | Sin a => exact Or.inr (Or.inr ⟨(fun _ _ h => by cases h), (fun _ h => by cases h), rfl⟩)
  | Cos a => exact Or.inr (Or.inr ⟨(fun _ _ h => by cases h), (fun _ h => by cases h), rfl⟩)
  | Exp a => exact Or.inr (Or.inr ⟨(fun _ _ h => by cases h), (fun _ h => by cases h), rfl⟩)
  | Log a => exact Or.inr (Or.inr ⟨(fun _ _ h => by cases h), (fun _ h => by cases h), rfl⟩)

/-- Case analysis of `mulStep`. -/
theorem mulStep_eq (acc : List Expr × Int) (arg : Expr) :
    (∃ v n, arg = .Const (some v) n ∧ mulStep acc arg = (acc.1, acc.2 * v)) ∨
    (∃ secs, arg = .Mul secs ∧ mulStep acc arg = secs.foldl mulInnerStep acc) ∨
    ((∀ v n, arg ≠ .Const (some v) n) ∧ (∀ secs, arg ≠ .Mul secs) ∧
      mulStep acc arg = (acc.1 ++ [arg], acc.2)) := by
  cases arg with
  | Const v n =>
    cases v with
    | some k => exact Or.inl ⟨k, n, rfl, rfl⟩
    | none =>
      exact Or.inr (Or.inr ⟨(fun _ _ h => by simp at h), (fun _ h => by cases h), rfl⟩)
  | Mul l => exact Or.inr (Or.inl ⟨l, rfl, rfl⟩)
  | Var n => exact Or.inr (Or.inr ⟨(fun _ _ h => by cases h), (fun _ h => by cases h), rfl⟩)
  | Add l => exact Or.inr (Or.inr ⟨(fun _ _ h => by cases h), (fun _ h => by cases h), rfl⟩)
  | Div a b => exact Or.inr (Or.inr ⟨(fun _ _ h => by cases h), (fun _ h => by cases h), rfl⟩)
  | Pow a b => exact Or.inr (Or.inr ⟨(fun _ _ h => by cases h), (fun _ h => by cases h), rfl⟩)
  | Neg a => exact Or.inr (Or.inr ⟨(fun _ _ h => by cases h), (fun _ h => by cases h), rfl⟩)
  | Func f a => exact Or.inr (Or.inr ⟨(fun _ _ h => by cases h), (fun _ h => by cases h), rfl⟩)
  | Sin a => exact Or.inr (Or.inr ⟨(fun _ _ h => by cases h), (fun _ h => by cases h), rfl⟩)
  | Cos a => exact Or.inr (Or.inr ⟨(fun _ _ h => by cases h), (fun _ h => by cases h), rfl⟩)
  | Exp a => exact Or.inr (Or.inr ⟨(fun _ _ h => by cases h), (fun _ h => by cases h), rfl⟩)
  | Log a => exact Or.inr (Or.inr ⟨(fun _ _ h => by cases h), (fun _ h => by cases h), rfl⟩)

theorem simplifiedArguments_eq_map (l : List Expr) :
    simplifiedArguments l = l.map simplified := by
  induction l with
  | nil => rfl
  | cons a rest ih => simp [simplifiedArguments, ih]

/-- Second component of the inner `Mul` flattening fold: once the running
product is zero it stays zero. -/
theorem mulInnerFold_snd_zero (secs : List Expr) (acc : List Expr × Int)
    (h : acc.2 = 0) : (secs.foldl mulInnerStep acc).2 = 0 := by
  induction secs generalizing acc with
  | nil => exact h
  | cons s rest ih =>
    apply ih
    rcases mulInnerStep_eq acc s with ⟨v, n, _, heq⟩ | ⟨_, heq⟩ <;>
      simp [heq, h]

/-- Second component of the main `Mul.simplified` fold: once the running
product is zero it stays zero. -/
theorem mulFold_snd_zero (l : List Expr) (acc : List Expr × Int)
    (h : acc.2 = 0) : (l.foldl mulStep acc).2 = 0 := by
  induction l generalizing acc with
  | nil => exact h
  | cons a rest ih =>
    apply ih
    rcases mulStep_eq acc a with ⟨v, n, _, heq⟩ | ⟨secs, _, heq⟩ | ⟨_, _, heq⟩
    · simp [heq, h]
    · rw [heq]; exact mulInnerFold_snd_zero secs acc h
    · simp [heq, h]

theorem mulFinish_snd_zero (p : List Expr × Int) (h : p.2 = 0) :
    mulFinish p = .Const (some 0) none := by
  simp [mulFinish, h]

/-- C5: a leading `Const(0)` factor absorbs the whole product: for every
expression `x`, however deep, `simplified(Mul(Const(0), x))` is the node
`Const(0)`. -/
theorem mul_zero_absorption (x : Expr) :
    simplified (.Mul [.Const (some 0) none, x]) = .Const (some 0) none := by
  have h1 : simplified (.Mul [.Const (some 0) none, x])
      = mulFinish ((simplifiedArguments [.Const (some 0) none, x]).foldl
          mulStep ([], 1)) := rfl
  have h2 : simplifiedArguments [.Const (some 0) none, x]
      = [.Const (some 0) none, simplified x] := rfl
  have h3 : List.foldl mulStep ([], 1) [Expr.Const (some 0) none, simplified x]
      = List.foldl mulStep ([], 0) [simplified x] := rfl
  rw [h1, h2, h3]
  exact mulFinish_snd_zero _ (mulFold_snd_zero [simplified x] ([], 0) rfl)

/-- C8: `simplified(Add(Const(None, "pi"), Const(0)))` is the named
constant `Const(None, "pi")` alone: the zero term is dropped and the
named constant survives as a term instead of entering the accumulator. -/
theorem named_const_opacity :
    simplified (.Add [.Const none (some "pi"), .Const (some 0) none])
      = .Const none (some "pi") := by decide

/-- C1 counterexample: the inherited `Expr.simplified` does not recurse.
`simplified(Neg(Add(Const(2), Const(3))))` returns the node unchanged,
although the simplified form of its child is `Const(5)` — so the child is
not replaced by its simplified form as the claim asserts. -/
theorem default_simplified_cex :
    simplified (.Neg (.Add [.Const (some 2) none, .Const (some 3) none]))
        = .Neg (.Add [.Const (some 2) none, .Const (some 3) none]) ∧
    simplified (.Add [.Const (some 2) none, .Const (some 3) none])
        = .Const (some 5) none ∧
    simplified (.Neg (.Add [.Const (some 2) none, .Const (some 3) none]))
        ≠ .Neg (simplified (.Add [.Const (some 2) none, .Const (some 3) none])) := by
  decide

/-- C1 amended: for the variants `Var`, `Const`, `Div`, `Pow`, `Neg`,
`Func`, `Sin`, `Cos`, `Exp`, `Log`, `simplified()` is the inherited
`Expr.simplified`, which returns the node itself unchanged — applying no
algebraic rewrite and *not* recursing into (or simplifying) the node's
children. -/
theorem default_simplified_identity :
    (∀ n, simplified (.Var n) = .Var n) ∧
    (∀ v s, simplified (.Const v s) = .Const v s) ∧
    (∀ a b, simplified (.Div a b) = .Div a b) ∧
    (∀ a b, simplified (.Pow a b) = .Pow a b) ∧
    (∀ a, simplified (.Neg a) = .Neg a) ∧
    (∀ n a, simplified (.Func n a) = .Func n a) ∧
    (∀ a, simplified (.Sin a) = .Sin a) ∧
    (∀ a, simplified (.Cos a) = .Cos a) ∧
    (∀ a, simplified (.Exp a) = .Exp a) ∧
    (∀ a, simplified (.Log a) = .Log a) :=
  ⟨fun _ => rfl, fun _ _ => rfl, fun _ _ => rfl, fun _ _ => rfl, fun _ => rfl,
   fun _ _ => rfl, fun _ => rfl, fun _ => rfl, fun _ => rfl, fun _ => rfl⟩

/-- C4 counterexample: `Var.derivative` returns the raw Python integer
`int(self.name == var.name)` (here `1`), not the expression node
`Const(1)`. -/
theorem var_derivative_cex :
    derivative (.Var "x") "x" = .inl 1 ∧
    derivative (.Var "x") "x" ≠ .inr (.Const (some 1) none) := by decide

/-- C4 amended: `derivative(Var(x), v)` is the bare integer `1` when the
names agree and the bare integer `0` otherwise; the value only becomes a
`Const` node through the promotion performed by `Expr.__init__` when it is
used as a constructor argument. -/
theorem var_derivative_raw_int (x v : String) :
    derivative (.Var x) v = .inl (if x = v then 1 else 0) ∧
    promote (derivative (.Var x) v)
      = .Const (some (if x = v then 1 else 0)) none := by
  refine ⟨rfl, ?_⟩
  by_cases h : x = v <;> simp [derivative, promote, h]

/-- C6: differentiation distributes over binary `Add` before any
simplification: `derivative(Add(e1, e2), v)` is exactly the node
`Add(derivative(e1, v), derivative(e2, v))` (the `Add` constructor
promoting the raw-integer derivatives of `Var` children to `Const`). -/
theorem add_derivative_termwise (e1 e2 : Expr) (v : String) :
    derivative (.Add [e1, e2]) v
      = .inr (AddC [derivative e1 v, derivative e2 v]) := rfl

/-- Unfolding of `factors` on an integer-valued `Const`: the results of
the trial-division loop `for i in range(1, value + 1)`. -/
theorem factors_const_eq (v : Int) (nm : Option String) :
    factors (.Const (some v) nm)
      = ((((List.range v.toNat).map (fun k : Nat => ((k : Int) + 1))).filter
          (fun i => v % i == 0)).map (fun i => Expr.Const (some i) none)).toFinset := rfl

/-- Membership in the list produced by the trial-division range
`range(1, v + 1)`. -/
theorem mem_trialRange (v i : Int) :
    (i ∈ (List.range v.toNat).map (fun k : Nat => ((k : Int) + 1))) ↔ 1 ≤ i ∧ i ≤ v := by
  rw [List.mem_map]
  constructor
  · rintro ⟨k, hk, rfl⟩
    rw [List.mem_range] at hk
    omega
  · rintro ⟨h1, h2⟩
    exact ⟨(i - 1).toNat, by rw [List.mem_range]; omega, by omega⟩

/-- C7: for a `Const` holding a positive integer, `factors()` is exactly
the set of all positive integer divisors of the value, each wrapped as a
`Const` node; in particular `factors(Const(12))` is
`{Const(1), Const(2), Const(3), Const(4), Const(6), Const(12)}`. -/
theorem const_factors_divisors :
    (∀ (v : Int) (nm : Option String), 0 < v →
        factors (.Const (some v) nm)
          = ((Finset.Icc 1 v).filter (fun i => i ∣ v)).image
              (fun i => Expr.Const (some i) none)) ∧
    factors (.Const (some 12) none)
      = {.Const (some 1) none, .Const (some 2) none, .Const (some 3) none,
         .Const (some 4) none, .Const (some 6) none, .Const (some 12) none} := by
  refine ⟨?_, by decide⟩
  intro v nm hv
  rw [factors_const_eq]
  ext x
  simp only [List.mem_toFinset, List.mem_map, List.mem_filter, List.mem_range,
    Finset.mem_image, Finset.mem_filter, Finset.mem_Icc, beq_iff_eq]
  constructor
  · rintro ⟨i, ⟨⟨k, hk, rfl⟩, hmod⟩, rfl⟩
    exact ⟨(k : Int) + 1, ⟨⟨by omega, by omega⟩,
      Int.dvd_of_emod_eq_zero hmod⟩, rfl⟩
  · rintro ⟨i, ⟨⟨h1, h2⟩, hdvd⟩, rfl⟩
    exact ⟨i, ⟨⟨(i - 1).toNat, by omega, by omega⟩,
      Int.emod_eq_zero_of_dvd hdvd⟩, rfl⟩

/-- Witness for `const_factors_divisors` at the concrete value 4. -/
theorem const_factors_divisors_witness :
    factors (.Const (some 4) none)
      = ((Finset.Icc 1 (4 : Int)).filter (fun i => i ∣ (4 : Int))).image
          (fun i => Expr.Const (some i) none) :=
  const_factors_divisors.1 4 none (by norm_num)

/-- C10: for a `Const` holding an integer `≤ 0` the trial-division range
`range(1, value + 1)` is empty, so `factors()` is the empty set (not the
`{self}` default). -/
theorem factors_nonpos_empty (v : Int) (hv : v ≤ 0) (nm : Option String) :
    factors (.Const (some v) nm) = (∅ : Finset Expr) := by
  have h0 : v.toNat = 0 := by omega
  rw [factors_const_eq, h0]
  rfl

/-- Witness for `factors_nonpos_empty` at the concrete value -5. -/
theorem factors_nonpos_empty_witness :
    factors (.Const (some (-5)) none) = (∅ : Finset Expr) :=
  factors_nonpos_empty (-5) (by norm_num) none

/-- C9 counterexample: `Const.__neg__` on a value-carrying, unnamed
constant folds the value instead of building a `Neg` node:
`-Const(5)` is `Const(-5)`, not `Neg(Const(5))`. -/
theorem const_neg_cex :
    pyNeg (.Const (some 5) none) = some (.Const (some (-5)) none) ∧
    pyNeg (.Const (some 5) none) ≠ some (.Neg (.Const (some 5) none)) := by decide

/-- C9 amended: unary negation wraps its operand in a `Neg` node for every
variant *except* an unnamed `Const`, for which `Const.__neg__` returns
`Const(-value)` instead (and a named `Const` is wrapped like everything
else). -/
theorem neg_builds_neg_node :
    (∀ v : Int, pyNeg (.Const (some v) none) = some (.Const (some (-v)) none)) ∧
    (∀ e : Expr, (∀ v, e ≠ .Const v none) → pyNeg e = some (.Neg e)) := by
  constructor
  · intro v; rfl
  · intro e he
    match e, he with
    | .Const v none, he => exact absurd rfl (he v)
    | .Const v (some s), _ => rfl
    | .Var n, _ => rfl
    | .Add l, _ => rfl
    | .Mul l, _ => rfl
    | .Div a b, _ => rfl
    | .Pow a b, _ => rfl
    | .Neg a, _ => rfl
    | .Func f a, _ => rfl
    | .Sin a, _ => rfl
    | .Cos a, _ => rfl
    | .Exp a, _ => rfl
    | .Log a, _ => rfl

/-- Witness for `neg_builds_neg_node` at the concrete node `Var("x")`. -/
theorem neg_builds_neg_node_witness :
    pyNeg (.Var "x") = some (.Neg (.Var "x")) :=
  neg_builds_neg_node.2 (.Var "x") (fun v h => by cases h)

/-- A node of one of the ten classes that inherit `Expr.__eq__` — anything
that is neither a `Var` nor a `Const`. -/
def Composite (a : Expr) : Prop :=
  (∀ s, a ≠ .Var s) ∧ (∀ v t, a ≠ .Const v t)

theorem pyEq_var_var (s m : String) :
    pyEq (.Var s) (.Var m) = some (s == m) := by simp [pyEq]

theorem pyEq_var_other (s : String) (b : Expr) (hb : ∀ m, b ≠ .Var m) :
    pyEq (.Var s) b = none := by
  cases b
  case Var m => exact absurd rfl (hb m)
  all_goals simp [pyEq]

theorem pyEq_const_const (v w : Option Int) (s t : Option String) :
    pyEq (.Const v s) (.Const w t) = some (s == t && v == w) := by simp [pyEq]

theorem pyEq_const_other (v : Option Int) (s : Option String) (b : Expr)
    (hb : ∀ w t, b ≠ .Const w t) : pyEq (.Const v s) b = none := by
  cases b
  case Const w t => exact absurd rfl (hb w t)
  all_goals simp [pyEq]

/-- `Expr.__eq__` on a node of a class that does not override it: compare
the `arguments` tuples (length first, then elementwise), then the
`description` strings. -/
theorem pyEq_comp (a b : Expr) (ha : Composite a) :
    pyEq a b =
      (if (argsOf a).length = (argsOf b).length then
        match pyEqArgs (argsOf a) (argsOf b) with
        | none => none
        | some false => some false
        | some true => some (descr a == descr b)
      else some false) := by
  cases a
  case Var s => exact absurd rfl (ha.1 s)
  case Const v t => exact absurd rfl (ha.2 v t)
  all_goals simp [pyEq]

theorem pyEqArgs_nil : pyEqArgs [] [] = some true := by simp [pyEqArgs]

theorem pyEqArgs_nil_cons (y : Expr) (ys : List Expr) :
    pyEqArgs [] (y :: ys) = some false := by simp [pyEqArgs]

theorem pyEqArgs_cons_nil (x : Expr) (xs : List Expr) :
    pyEqArgs (x :: xs) [] = some false := by simp [pyEqArgs]

theorem pyEqArgs_cons (x y : Expr) (xs ys : List Expr) :
    pyEqArgs (x :: xs) (y :: ys) =
      (match pyEq x y with
       | none => none
       | some false => some false
       | some true => pyEqArgs xs ys) := by
  simp [pyEqArgs]

theorem hashKeyArgs_cons (x : Expr) (xs : List Expr) :
    hashKeyArgs (x :: xs) = hashKey x :: hashKeyArgs xs := rfl

theorem hashKey_comp (a : Expr) (ha : Composite a) :
    hashKey a = .node (descr a) (hashKeyArgs (argsOf a)) := by
  cases a
  case Var s => exact absurd rfl (ha.1 s)
  case Const v t => exact absurd rfl (ha.2 v t)
  all_goals rfl

/-- A composite node with an empty `arguments` tuple is an empty `Add` or
an empty `Mul`, whose descriptions are `"+"` and `"*"`. -/
theorem argsOf_nil_descr (a : Expr) (ha : Composite a) (h : argsOf a = []) :
    descr a = "+" ∨ descr a = "*" := by
  cases a
  case Var s => exact absurd rfl (ha.1 s)
  case Const v t => exact absurd rfl (ha.2 v t)
  case Add l => exact Or.inl rfl
  case Mul l => exact Or.inr rfl
  all_goals simp [argsOf] at h

/-- Shape of `hashKey` by variant. -/
theorem hashKey_cases (b : Expr) :
    (∃ m, b = .Var m ∧ hashKey b = .str m ∧ argsOf b = [] ∧ descr b = "var") ∨
    (∃ w t, b = .Const w t ∧ hashKey b = .pair t w ∧ argsOf b = [] ∧
        descr b = "const") ∨
    (Composite b ∧ hashKey b = .node (descr b) (hashKeyArgs (argsOf b))) := by
  cases b
  case Var m => exact Or.inl ⟨m, rfl, rfl, rfl, rfl⟩
  case Const w t => exact Or.inr (Or.inl ⟨w, t, rfl, rfl, rfl, rfl⟩)
  all_goals
    exact Or.inr (Or.inr ⟨⟨(fun _ h => by cases h), (fun _ _ h => by cases h)⟩, rfl⟩)

theorem hashKeyArgs_length (l : List Expr) :
    (hashKeyArgs l).length = l.length := by
  induction l with
  | nil => rfl
  | cons x xs ih => simp [hashKeyArgs_cons, ih]

theorem hashKey_var (s : String) : hashKey (.Var s) = .str s := rfl

theorem hashKey_const (v : Option Int) (t : Option String) :
    hashKey (.Const v t) = .pair t v := rfl

theorem hashKeyArgs_nil : hashKeyArgs [] = [] := rfl

/-- Soundness of `Expr.__eq__` (the inherited case) with respect to the
hash-input trees, given the list-level induction hypothesis. -/
theorem comp_case_aux (n : Nat)
    (ihL : ∀ xs ys r, esizeL xs + esizeL ys ≤ n → pyEqArgs xs ys = some r →
        (r = true ↔ hashKeyArgs xs = hashKeyArgs ys))
    (a b : Expr) (ha : Composite a) (r : Bool)
    (hsz : esize a + esize b ≤ n + 1)
    (hr : pyEq a b = some r) :
    (r = true ↔ hashKey a = hashKey b) := by
  rw [pyEq_comp a b ha] at hr
  have hka := hashKey_comp a ha
  have hszargs : esizeL (argsOf a) + esizeL (argsOf b) ≤ n := by
    have l1 := esizeL_argsOf_lt a
    have l2 := esizeL_argsOf_lt b
    omega
  by_cases hlen : (argsOf a).length = (argsOf b).length
  · rw [if_pos hlen] at hr
    cases hargs : pyEqArgs (argsOf a) (argsOf b) with
    | none =>
      rw [hargs] at hr
      exact absurd hr (by simp)
    | some bv =>
      rw [hargs] at hr
      cases bv with
      | false =>
        have h2 : (some false : Option Bool) = some r := hr
        have hrf : r = false := (Option.some.inj h2).symm
        subst hrf
        have hne : hashKeyArgs (argsOf a) ≠ hashKeyArgs (argsOf b) := by
          intro hh
          have := (ihL _ _ false hszargs hargs).mpr hh
          exact absurd this (by decide)
        constructor
        · intro h; exact absurd h (by decide)
        · intro hab
          exfalso
          rcases hashKey_cases b with ⟨m, rfl, hkb, hb0, hbd⟩ |
            ⟨w, t, rfl, hkb, hb0, hbd⟩ | ⟨hcb, hkb⟩
          · rw [hka, hkb] at hab; cases hab
          · rw [hka, hkb] at hab; cases hab
          · rw [hka, hkb] at hab
            injection hab with hd hargs2
            exact hne hargs2
      | true =>
        have h2 : (some (descr a == descr b) : Option Bool) = some r := hr
        have hrt : r = (descr a == descr b) := (Option.some.inj h2).symm
        subst hrt
        have hkargs : hashKeyArgs (argsOf a) = hashKeyArgs (argsOf b) :=
          (ihL _ _ true hszargs hargs).mp rfl
        rcases hashKey_cases b with ⟨m, rfl, hkb, hb0, hbd⟩ |
          ⟨w, t, rfl, hkb, hb0, hbd⟩ | ⟨hcb, hkb⟩
        · have ha0 : argsOf a = [] := by
            rw [hb0] at hlen
            exact List.eq_nil_of_length_eq_zero (by simpa using hlen)
          rw [hbd, hka, hkb]
          rcases argsOf_nil_descr a ha ha0 with hd | hd <;> rw [hd]
          · constructor
            · intro h; exact absurd h (by decide)
            · intro h; cases h
          · constructor
            · intro h; exact absurd h (by decide)
            · intro h; cases h
        · have ha0 : argsOf a = [] := by
            rw [hb0] at hlen
            exact List.eq_nil_of_length_eq_zero (by simpa using hlen)
          rw [hbd, hka, hkb]
          rcases argsOf_nil_descr a ha ha0 with hd | hd <;> rw [hd]
          · constructor
            · intro h; exact absurd h (by decide)
            · intro h; cases h
          · constructor
            · intro h; exact absurd h (by decide)
            · intro h; cases h
        · rw [hka, hkb]
          constructor
          · intro h
            have hd : descr a = descr b := by simpa using h
            rw [hd, hkargs]
          · intro h
            injection h with hd hargs2
            simp [hd]
  · rw [if_neg hlen] at hr
    have h2 : (some false : Option Bool) = some r := hr
    have hrf : r = false := (Option.some.inj h2).symm
    subst hrf
    constructor
    · intro h; exact absurd h (by decide)
    · intro hab
      exfalso
      rcases hashKey_cases b with ⟨m, rfl, hkb, hb0, hbd⟩ |
        ⟨w, t, rfl, hkb, hb0, hbd⟩ | ⟨hcb, hkb⟩
      · rw [hka, hkb] at hab; cases hab
      · rw [hka, hkb] at hab; cases hab
      · rw [hka, hkb] at hab
        injection hab with hd hargs2
        apply hlen
        have := congrArg List.length hargs2
        rwa [hashKeyArgs_length, hashKeyArgs_length] at this

/-- Python `==`, whenever it returns without raising, decides equality of
the hash-input trees: `True` exactly when the two nodes have the same
discriminator tag and recursively equal children (`Var` by name, `Const`
by name and value). -/
theorem pyEq_sound :
    ∀ (a b : Expr) (r : Bool), pyEq a b = some r →
      (r = true ↔ hashKey a = hashKey b) := by
  have main : ∀ n : Nat, ∀ a b r, esize a + esize b ≤ n → pyEq a b = some r →
      (r = true ↔ hashKey a = hashKey b) := by
    intro n
    induction n with
    | zero =>
      intro a b r h _
      have := esize_pos a
      have := esize_pos b
      omega
    | succ n ih =>
      have ihL : ∀ xs ys r, esizeL xs + esizeL ys ≤ n → pyEqArgs xs ys = some r →
          (r = true ↔ hashKeyArgs xs = hashKeyArgs ys) := by
        intro xs
        induction xs with
        | nil =>
          intro ys r hsz hr
          cases ys with
          | nil =>
            rw [pyEqArgs_nil] at hr
            have : r = true := (Option.some.inj hr).symm
            subst this
            simp
          | cons y ys =>
            rw [pyEqArgs_nil_cons] at hr
            have : r = false := (Option.some.inj hr).symm
            subst this
            constructor
            · intro h; exact absurd h (by decide)
            · intro h
              rw [hashKeyArgs_nil, hashKeyArgs_cons] at h
              cases h
        | cons x xs ihxs =>
          intro ys r hsz hr
          cases ys with
          | nil =>
            rw [pyEqArgs_cons_nil] at hr
            have : r = false := (Option.some.inj hr).symm
            subst this
            constructor
            · intro h; exact absurd h (by decide)
            · intro h
              rw [hashKeyArgs_cons, hashKeyArgs_nil] at h
              cases h
          | cons y ys =>
            rw [pyEqArgs_cons] at hr
            have e1 := esizeL_cons x xs
            have e2 := esizeL_cons y ys
            have hszx : esize x + esize y ≤ n := by omega
            have hszxs : esizeL xs + esizeL ys ≤ n := by omega
            cases hxy : pyEq x y with
            | none =>
              rw [hxy] at hr
              exact absurd hr (by simp)
            | some bxy =>
              rw [hxy] at hr
              cases bxy with
              | false =>
                have h2 : (some false : Option Bool) = some r := hr
                have : r = false := (Option.some.inj h2).symm
                subst this
                have hx := ih x y false hszx hxy
                have hnex : hashKey x ≠ hashKey y := by
                  intro hh
                  exact absurd (hx.mpr hh) (by decide)
                constructor
                · intro h; exact absurd h (by decide)
                · intro h
                  rw [hashKeyArgs_cons, hashKeyArgs_cons] at h
                  injection h with h1 hrest
                  exact (hnex h1).elim
              | true =>
                have h2 : pyEqArgs xs ys = some r := hr
                have hx := (ih x y true hszx hxy).mp rfl
                have hxs := ihxs ys r hszxs h2
                rw [hashKeyArgs_cons, hashKeyArgs_cons]
                constructor
                · intro h
                  rw [hx, hxs.mp h]
                · intro h
                  injection h with h1 hrest
                  exact hxs.mpr hrest
      intro a b r hsz hr
      cases a
      case Var s =>
        cases b
        case Var m =>
          rw [pyEq_var_var] at hr
          have : r = (s == m) := (Option.some.inj hr).symm
          subst this
          rw [hashKey_var, hashKey_var]
          constructor
          · intro h
            have : s = m := by simpa using h
            rw [this]
          · intro h
            injection h with h1
            simp [h1]
        all_goals
          rw [pyEq_var_other _ _ (fun _ hh => by cases hh)] at hr
        all_goals exact absurd hr (by simp)
      case Const v t =>
        cases b
        case Const w u =>
          rw [pyEq_const_const] at hr
          have : r = (t == u && v == w) := (Option.some.inj hr).symm
          subst this
          rw [hashKey_const, hashKey_const]
          constructor
          · intro h
            have h2 : t = u ∧ v = w := by simpa using h
            rw [h2.1, h2.2]
          · intro h
            injection h with h1 h2
            simp [h1, h2]
        all_goals
          rw [pyEq_const_other _ _ _ (fun _ _ hh => by cases hh)] at hr
        all_goals exact absurd hr (by simp)
      all_goals
        exact comp_case_aux n ihL _ _
          ⟨(fun _ hh => by cases hh), (fun _ _ hh => by cases hh)⟩ r hsz hr
  intro a b r hr
  exact main (esize a + esize b) a b r le_rfl hr

/-- C2 counterexample: comparing two well-formed nodes of different
variants can fail instead of returning `False`: `Var.__eq__` asserts
`isinstance(other, Var)`, so `Var("x") == Const(1)` raises
`AssertionError` (modelled by `none`) rather than evaluating to `False`. -/
theorem structural_eq_cex :
    pyEq (.Var "x") (.Const (some 1) none) = none ∧
    pyEq (.Var "x") (.Const (some 1) none) ≠ some false := by
  constructor
  · simp [pyEq]
  · simp [pyEq]

/-- C2 amended: whenever `a == b` returns a Boolean without raising, that
Boolean is `True` iff `a` and `b` have the same variant tag (`description`)
and structurally equal ordered child sequences — `Var` compared by name and
`Const` by name AND value (both components) — as captured by equality of
the hash-input trees; consequently `hash(a) = hash(b)` whenever `a == b`
returns `True`.  However, comparing a `Var` or a `Const` on the left
against a node of any other variant raises `AssertionError` instead of
returning `False`. -/
theorem structural_eq_spec :
    (∀ (a b : Expr) (r : Bool), pyEq a b = some r →
        (r = true ↔ hashKey a = hashKey b)) ∧
    (∀ a b : Expr, pyEq a b = some true → hashKey a = hashKey b) ∧
    (∀ (s : String) (b : Expr), (∀ m, b ≠ .Var m) → pyEq (.Var s) b = none) ∧
    (∀ (v : Option Int) (t : Option String) (b : Expr),
        (∀ w u, b ≠ .Const w u) → pyEq (.Const v t) b = none) := by
  refine ⟨pyEq_sound, ?_, pyEq_var_other, pyEq_const_other⟩
  intro a b h
  exact (pyEq_sound a b true h).mp rfl

/-- Witness for `structural_eq_spec` at concrete nodes: a successful
comparison of `Sin(Var("x"))` with `Func("sin", Var("x"))` (equal nodes of
equal hash), and a raising comparison of `Var("x")` against an `Add`. -/
theorem structural_eq_spec_witness :
    hashKey (.Sin (.Var "x")) = hashKey (.Func "sin" (.Var "x")) ∧
    pyEq (.Var "x") (.Add []) = none :=
  ⟨structural_eq_spec.2.1 (.Sin (.Var "x")) (.Func "sin" (.Var "x"))
      (by simp [pyEq, pyEqArgs, argsOf, descr]),
   structural_eq_spec.2.2.1 "x" (.Add []) (fun m hh => by cases hh)⟩

def notAdd (e : Expr) : Prop := ∀ l, e ≠ .Add l

def notMul (e : Expr) : Prop := ∀ l, e ≠ .Mul l

/-- Not a value-carrying `Const` (named or not). -/
def notVC (e : Expr) : Prop := ∀ v n, e ≠ .Const (some v) n

/-- Invariant of the trees returned by `simplified`.  `Add`/`Mul` output
nodes have at least two terms, none of which is a nested `Add` (resp.
`Mul`) or a value-carrying `Const` — except for at most one folded
`Const(const)` appended at the end, whose value is nonzero (and ≠ 1 for
`Mul`); all other variants are returned unchanged by `simplified`, so any
such node is a fixed point. -/
inductive Out : Expr → Prop where
  | var : ∀ n, Out (.Var n)
  | const : ∀ v n, Out (.Const v n)
  | div : ∀ a b, Out (.Div a b)
  | pow : ∀ a b, Out (.Pow a b)
  | neg : ∀ a, Out (.Neg a)
  | func : ∀ n a, Out (.Func n a)
  | sin : ∀ a, Out (.Sin a)
  | cos : ∀ a, Out (.Cos a)
  | exp : ∀ a, Out (.Exp a)
  | log : ∀ a, Out (.Log a)
  | addNoC : ∀ l, (∀ x ∈ l, Out x) → (∀ x ∈ l, notAdd x ∧ notVC x) →
      2 ≤ l.length → Out (.Add l)
  | addC : ∀ l (c : Int), (∀ x ∈ l, Out x) → (∀ x ∈ l, notAdd x ∧ notVC x) →
      c ≠ 0 → l ≠ [] → Out (.Add (l ++ [.Const (some c) none]))
  | mulNoC : ∀ l, (∀ x ∈ l, Out x) → (∀ x ∈ l, notMul x ∧ notVC x) →
      2 ≤ l.length → Out (.Mul l)
  | mulC : ∀ l (c : Int), (∀ x ∈ l, Out x) → (∀ x ∈ l, notMul x ∧ notVC x) →
      c ≠ 0 → c ≠ 1 → l ≠ [] → Out (.Mul (l ++ [.Const (some c) none]))

/-- Elements of a simplified `Add` node that are not value-carrying
constants are themselves simplified outputs and not nested `Add`s. -/
theorem out_add_elem (args : List Expr) (h : Out (.Add args)) :
    ∀ s ∈ args, notVC s → (Out s ∧ notAdd s) := by
  intro s hs hnvc
  cases h with
  | addNoC l hout hgood hlen => exact ⟨hout s hs, (hgood s hs).1⟩
  | addC l c hout hgood hc hl =>
    rcases List.mem_append.mp hs with h' | h'
    · exact ⟨hout s h', (hgood s h').1⟩
    · have hsc : s = .Const (some c) none := by simpa using h'
      exact absurd hsc (hnvc c none)

theorem out_mul_elem (args : List Expr) (h : Out (.Mul args)) :
    ∀ s ∈ args, notVC s → (Out s ∧ notMul s) := by
  intro s hs hnvc
  cases h with
  | mulNoC l hout hgood hlen => exact ⟨hout s hs, (hgood s hs).1⟩
  | mulC l c hout hgood hc hc1 hl =>
    rcases List.mem_append.mp hs with h' | h'
    · exact ⟨hout s h', (hgood s h').1⟩
    · have hsc : s = .Const (some c) none := by simpa using h'
      exact absurd hsc (hnvc c none)

theorem simplified_add (l : List Expr) :
    simplified (.Add l)
      = addFinish ((simplifiedArguments l).foldl addStep ([], 0)) := rfl

theorem simplified_mul (l : List Expr) :
    simplified (.Mul l)
      = mulFinish ((simplifiedArguments l).foldl mulStep ([], 1)) := rfl

theorem addStep_append (acc : List Expr × Int) (x : Expr)
    (h1 : notAdd x) (h2 : notVC x) :
    addStep acc x = (acc.1 ++ [x], acc.2) := by
  rcases addStep_eq acc x with ⟨v, n, hx, _⟩ | ⟨secs, hx, _⟩ | ⟨_, _, heq⟩
  · exact absurd hx (h2 v n)
  · exact absurd hx (h1 secs)
  · exact heq

theorem mulStep_append (acc : List Expr × Int) (x : Expr)
    (h1 : notMul x) (h2 : notVC x) :
    mulStep acc x = (acc.1 ++ [x], acc.2) := by
  rcases mulStep_eq acc x with ⟨v, n, hx, _⟩ | ⟨secs, hx, _⟩ | ⟨_, _, heq⟩
  · exact absurd hx (h2 v n)
  · exact absurd hx (h1 secs)
  · exact heq

theorem addFold_append (l : List Expr) (acc : List Expr × Int)
    (h : ∀ x ∈ l, notAdd x ∧ notVC x) :
    l.foldl addStep acc = (acc.1 ++ l, acc.2) := by
  induction l generalizing acc with
  | nil => simp
  | cons x rest ih =>
    rw [List.foldl_cons,
      addStep_append acc x (h x (by simp)).1 (h x (by simp)).2,
      ih _ (fun y hy => h y (by simp [hy]))]
    simp

theorem mulFold_append (l : List Expr) (acc : List Expr × Int)
    (h : ∀ x ∈ l, notMul x ∧ notVC x) :
    l.foldl mulStep acc = (acc.1 ++ l, acc.2) := by
  induction l generalizing acc with
  | nil => simp
  | cons x rest ih =>
    rw [List.foldl_cons,
      mulStep_append acc x (h x (by simp)).1 (h x (by simp)).2,
      ih _ (fun y hy => h y (by simp [hy]))]
    simp

theorem addFinish_mk (l : List Expr) (c : Int) :
    addFinish (l, c)
      = (match (if c = 0 then l else l ++ [.Const (some c) none]) with
         | [] => .Const (some 0) none
         | [a] => a
         | args => .Add args) := rfl

theorem mulFinish_mk (l : List Expr) (c : Int) :
    mulFinish (l, c)
      = (if c = 0 then .Const (some 0) none
         else
           match (if c = 1 then l else l ++ [.Const (some c) none]) with
           | [] => .Const (some 1) none
           | [a] => a
           | args => .Mul args) := rfl

theorem addFinish_zero (l : List Expr) (h : 2 ≤ l.length) :
    addFinish (l, 0) = .Add l := by
  rcases l with _ | ⟨a, _ | ⟨b, t⟩⟩
  · simp at h
  · simp at h
  · rfl

theorem addFinish_const (l : List Expr) (c : Int) (hc : c ≠ 0) (hl : l ≠ []) :
    addFinish (l, c) = .Add (l ++ [.Const (some c) none]) := by
  rw [addFinish_mk, if_neg hc]
  rcases l with _ | ⟨a, _ | ⟨b, t⟩⟩
  · exact absurd rfl hl
  · rfl
  · rfl

theorem mulFinish_one (l : List Expr) (h : 2 ≤ l.length) :
    mulFinish (l, 1) = .Mul l := by
  rcases l with _ | ⟨a, _ | ⟨b, t⟩⟩
  · simp at h
  · simp at h
  · rfl

theorem mulFinish_const (l : List Expr) (c : Int) (hc : c ≠ 0) (hc1 : c ≠ 1)
    (hl : l ≠ []) :
    mulFinish (l, c) = .Mul (l ++ [.Const (some c) none]) := by
  rw [mulFinish_mk, if_neg hc, if_neg hc1]
  rcases l with _ | ⟨a, _ | ⟨b, t⟩⟩
  · exact absurd rfl hl
  · rfl
  · rfl

/-- Every tree satisfying `Out` is a fixed point of `simplified`. -/
theorem out_fix : ∀ e : Expr, Out e → simplified e = e := by
  intro e h
  induction h with
  | var n => rfl
  | const v n => rfl
  | div a b => rfl
  | pow a b => rfl
  | neg a => rfl
  | func n a => rfl
  | sin a => rfl
  | cos a => rfl
  | exp a => rfl
  | log a => rfl
  | addNoC l hout hgood hlen ih =>
    rw [simplified_add]
    have hmap : simplifiedArguments l = l := by
      rw [simplifiedArguments_eq_map]
      calc l.map simplified = l.map id := List.map_congr_left ih
        _ = l := List.map_id l
    rw [hmap, addFold_append l ([], 0) hgood]
    simpa using addFinish_zero l hlen
  | addC l c hout hgood hc hl ih =>
    rw [simplified_add]
    have hmap : simplifiedArguments (l ++ [.Const (some c) none])
        = l ++ [.Const (some c) none] := by
      rw [simplifiedArguments_eq_map]
      have : ∀ x ∈ l ++ [Expr.Const (some c) none], simplified x = id x := by
        intro x hx
        rcases List.mem_append.mp hx with h' | h'
        · exact ih x h'
        · have hx2 : x = Expr.Const (some c) none := by simpa using h'
          rw [hx2]; rfl
      rw [List.map_congr_left this, List.map_id]
    rw [hmap, List.foldl_append, addFold_append l ([], 0) hgood]
    have hstep : List.foldl addStep (([] : List Expr) ++ l, (0 : Int))
        [Expr.Const (some c) none] = ([] ++ l, 0 + c) := rfl
    rw [hstep]
    simpa using addFinish_const l c hc hl
  | mulNoC l hout hgood hlen ih =>
    rw [simplified_mul]
    have hmap : simplifiedArguments l = l := by
      rw [simplifiedArguments_eq_map]
      calc l.map simplified = l.map id := List.map_congr_left ih
        _ = l := List.map_id l
    rw [hmap, mulFold_append l ([], 1) hgood]
    simpa using mulFinish_one l hlen
  | mulC l c hout hgood hc hc1 hl ih =>
    rw [simplified_mul]
    have hmap : simplifiedArguments (l ++ [.Const (some c) none])
        = l ++ [.Const (some c) none] := by
      rw [simplifiedArguments_eq_map]
      have : ∀ x ∈ l ++ [Expr.Const (some c) none], simplified x = id x := by
        intro x hx
        rcases List.mem_append.mp hx with h' | h'
        · exact ih x h'
        · have hx2 : x = Expr.Const (some c) none := by simpa using h'
          rw [hx2]; rfl
      rw [List.map_congr_left this, List.map_id]
    rw [hmap, List.foldl_append, mulFold_append l ([], 1) hgood]
    have hstep : List.foldl mulStep (([] : List Expr) ++ l, (1 : Int))
        [Expr.Const (some c) none] = ([] ++ l, 1 * c) := rfl
    rw [hstep]
    have h1c : (1 : Int) * c = c := one_mul c
    rw [List.nil_append, h1c]
    exact mulFinish_const l c hc hc1 hl

/-- A valid non-constant term of a simplified `Add`. -/
def GoodA (x : Expr) : Prop := Out x ∧ notAdd x ∧ notVC x

/-- A valid non-constant term of a simplified `Mul`. -/
def GoodM (x : Expr) : Prop := Out x ∧ notMul x ∧ notVC x

theorem addInnerFold_good (secs : List Expr) (acc : List Expr × Int)
    (hsecs : ∀ s ∈ secs, notVC s → (Out s ∧ notAdd s))
    (hacc : ∀ g ∈ acc.1, GoodA g) :
    ∀ g ∈ (secs.foldl addInnerStep acc).1, GoodA g := by
  induction secs generalizing acc with
  | nil => exact hacc
  | cons s rest ih =>
    rw [List.foldl_cons]
    apply ih _ (fun y hy hv => hsecs y (by simp [hy]) hv)
    rcases addInnerStep_eq acc s with ⟨v, n, hs, heq⟩ | ⟨hnvc, heq⟩
    · rw [heq]; exact hacc
    · rw [heq]
      intro g hg
      rcases List.mem_append.mp hg with h' | h'
      · exact hacc g h'
      · have hgs : g = s := by simpa using h'
        subst hgs
        obtain ⟨ho, hna⟩ := hsecs g (by simp) hnvc
        exact ⟨ho, hna, hnvc⟩

theorem mulInnerFold_good (secs : List Expr) (acc : List Expr × Int)
    (hsecs : ∀ s ∈ secs, notVC s → (Out s ∧ notMul s))
    (hacc : ∀ g ∈ acc.1, GoodM g) :
    ∀ g ∈ (secs.foldl mulInnerStep acc).1, GoodM g := by
  induction secs generalizing acc with
  | nil => exact hacc
  | cons s rest ih =>
    rw [List.foldl_cons]
    apply ih _ (fun y hy hv => hsecs y (by simp [hy]) hv)
    rcases mulInnerStep_eq acc s with ⟨v, n, hs, heq⟩ | ⟨hnvc, heq⟩
    · rw [heq]; exact hacc
    · rw [heq]
      intro g hg
      rcases List.mem_append.mp hg with h' | h'
      · exact hacc g h'
      · have hgs : g = s := by simpa using h'
        subst hgs
        obtain ⟨ho, hnm⟩ := hsecs g (by simp) hnvc
        exact ⟨ho, hnm, hnvc⟩

theorem addFold_good (l : List Expr) (acc : List Expr × Int)
    (hl : ∀ x ∈ l, Out x)
    (hacc : ∀ g ∈ acc.1, GoodA g) :
    ∀ g ∈ (l.foldl addStep acc).1, GoodA g := by
  induction l generalizing acc with
  | nil => exact hacc
  | cons x rest ih =>
    rw [List.foldl_cons]
    apply ih _ (fun y hy => hl y (by simp [hy]))
    rcases addStep_eq acc x with ⟨v, n, hx, heq⟩ | ⟨secs, hx, heq⟩ | ⟨hnvc, hnadd, heq⟩
    · rw [heq]; exact hacc
    · rw [heq]
      have hx2 : Out (.Add secs) := hx ▸ hl x (by simp)
      exact addInnerFold_good secs acc (out_add_elem secs hx2) hacc
    · rw [heq]
      intro g hg
      rcases List.mem_append.mp hg with h' | h'
      · exact hacc g h'
      · have hgx : g = x := by simpa using h'
        subst hgx
        exact ⟨hl g (by simp), hnadd, hnvc⟩

theorem mulFold_good (l : List Expr) (acc : List Expr × Int)
    (hl : ∀ x ∈ l, Out x)
    (hacc : ∀ g ∈ acc.1, GoodM g) :
    ∀ g ∈ (l.foldl mulStep acc).1, GoodM g := by
  induction l generalizing acc with
  | nil => exact hacc
  | cons x rest ih =>
    rw [List.foldl_cons]
    apply ih _ (fun y hy => hl y (by simp [hy]))
    rcases mulStep_eq acc x with ⟨v, n, hx, heq⟩ | ⟨secs, hx, heq⟩ | ⟨hnvc, hnmul, heq⟩
    · rw [heq]; exact hacc
    · rw [heq]
      have hx2 : Out (.Mul secs) := hx ▸ hl x (by simp)
      exact mulInnerFold_good secs acc (out_mul_elem secs hx2) hacc
    · rw [heq]
      intro g hg
      rcases List.mem_append.mp hg with h' | h'
      · exact hacc g h'
      · have hgx : g = x := by simpa using h'
        subst hgx
        exact ⟨hl g (by simp), hnmul, hnvc⟩

theorem addFinish_out (p : List Expr × Int) (h : ∀ g ∈ p.1, GoodA g) :
    Out (addFinish p) := by
  obtain ⟨l, c⟩ := p
  by_cases hc : c = 0
  · subst hc
    rcases l with _ | ⟨a, _ | ⟨b, t⟩⟩
    · exact Out.const _ _
    · exact (h a (by simp)).1
    · rw [addFinish_zero _ (by simp)]
      exact Out.addNoC _ (fun x hx => (h x hx).1)
        (fun x hx => ⟨(h x hx).2.1, (h x hx).2.2⟩) (by simp)
  · rcases l with _ | ⟨a, t⟩
    · rw [addFinish_mk, if_neg hc]
      exact Out.const _ _
    · rw [addFinish_const _ _ hc (by simp)]
      exact Out.addC _ _ (fun x hx => (h x hx).1)
        (fun x hx => ⟨(h x hx).2.1, (h x hx).2.2⟩) hc (by simp)

theorem mulFinish_out (p : List Expr × Int) (h : ∀ g ∈ p.1, GoodM g) :
    Out (mulFinish p) := by
  obtain ⟨l, c⟩ := p
  by_cases hc : c = 0
  · subst hc
    exact Out.const _ _
  · by_cases hc1 : c = 1
    · subst hc1
      rcases l with _ | ⟨a, _ | ⟨b, t⟩⟩
      · exact Out.const _ _
      · exact (h a (by simp)).1
      · rw [mulFinish_one _ (by simp)]
        exact Out.mulNoC _ (fun x hx => (h x hx).1)
          (fun x hx => ⟨(h x hx).2.1, (h x hx).2.2⟩) (by simp)
    · rcases l with _ | ⟨a, t⟩
      · rw [mulFinish_mk, if_neg hc, if_neg hc1]
        exact Out.const _ _
      · rw [mulFinish_const _ _ hc hc1 (by simp)]
        exact Out.mulC _ _ (fun x hx => (h x hx).1)
          (fun x hx => ⟨(h x hx).2.1, (h x hx).2.2⟩) hc hc1 (by simp)

/-- Every tree returned by `simplified` satisfies the output invariant. -/
theorem out_simplified : ∀ e : Expr, Out (simplified e) := by
  have main : ∀ n : Nat, ∀ e, esize e ≤ n → Out (simplified e) := by
    intro n
    induction n with
    | zero =>
      intro e h
      have := esize_pos e
      omega
    | succ n ih =>
      intro e he
      cases e with
      | Add args =>
        rw [simplified_add]
        apply addFinish_out
        apply addFold_good
        · rw [simplifiedArguments_eq_map]
          intro x hx
          rcases List.mem_map.mp hx with ⟨y, hy, rfl⟩
          have hA : esize (Expr.Add args) = 1 + esizeL args := rfl
          have := esize_mem_lt hy
          exact ih y (by omega)
        · intro g hg
          simp at hg
      | Mul args =>
        rw [simplified_mul]
        apply mulFinish_out
        apply mulFold_good
        · rw [simplifiedArguments_eq_map]
          intro x hx
          rcases List.mem_map.mp hx with ⟨y, hy, rfl⟩
          have hA : esize (Expr.Mul args) = 1 + esizeL args := rfl
          have := esize_mem_lt hy
          exact ih y (by omega)
        · intro g hg
          simp at hg
      | Var s => exact Out.var s
      | Const v s => exact Out.const v s
      | Div a b => exact Out.div a b
      | Pow a b => exact Out.pow a b
      | Neg a => exact Out.neg a
      | Func f a => exact Out.func f a
      | Sin a => exact Out.sin a
      | Cos a => exact Out.cos a
      | Exp a => exact Out.exp a
      | Log a => exact Out.log a
  exact fun e => main (esize e) e le_rfl

/-- C3: the simplification pass is idempotent — applying `simplified`
twice yields the same tree as applying it once, for every expression
(integer-valued constants model). -/
theorem simplified_idempotent (e : Expr) :
    simplified (simplified e) = simplified e :=
  out_fix (simplified e) (out_simplified e)

/-- Python numeric constant values for the float-extended fragment of the
model: exact integers together with the float `nan`.  `Const.__init__`
(cas.py line 111) admits `int`, `float` and `complex` values; this fragment
is closed under Python's `+` and `*` with *exact* semantics (any operation
involving `nan` yields `nan`, integer operations never round), so the
translation of the simplification pass below is exact on every tree whose
constants lie in it. -/
inductive PyVal : Type where
  | int : Int → PyVal
  | nan : PyVal

/-- Python `+` on this value domain. -/
def addV : PyVal → PyVal → PyVal
  | .int a, .int b => .int (a + b)
  | _, _ => .nan

/-- Python `*` on this value domain; in particular `0 * nan` is `nan`. -/
def mulV : PyVal → PyVal → PyVal
  | .int a, .int b => .int (a * b)
  | _, _ => .nan

/-- Python `== k` against an integer literal: `nan` compares unequal to
everything, integers compare exactly. -/
def eqIntV (v : PyVal) (k : Int) : Bool :=
  match v with
  | .int a => a == k
  | .nan => false

/-- Expression trees over the `nan`-extended value domain; identical to
`Expr` except for the `Const` payload.  (`Expr` itself is the
exact-integer-constant fragment, which all integer-scoped claims use.) -/
inductive FExpr : Type where
  | Var : String → FExpr
  | Const : Option PyVal → Option String → FExpr
  | Add : List FExpr → FExpr
  | Mul : List FExpr → FExpr
  | Div : FExpr → FExpr → FExpr
  | Pow : FExpr → FExpr → FExpr
  | Neg : FExpr → FExpr
  | Func : String → FExpr → FExpr
  | Sin : FExpr → FExpr
  | Cos : FExpr → FExpr
  | Exp : FExpr → FExpr
  | Log : FExpr → FExpr

/-- Inner flattening step of `Add.simplified` on the extended domain. -/
def addInnerStepF (acc : List FExpr × PyVal) (s : FExpr) : List FExpr × PyVal :=
  match s with
  | .Const (some v) _ => (acc.1, addV acc.2 v)
  | s => (acc.1 ++ [s], acc.2)

/-- Main loop step of `Add.simplified` on the extended domain. -/
def addStepF (acc : List FExpr × PyVal) (arg : FExpr) : List FExpr × PyVal :=
  match arg with
  | .Const (some v) _ => (acc.1, addV acc.2 v)
  | .Add secs => secs.foldl addInnerStepF acc
  | e => (acc.1 ++ [e], acc.2)

/-- Tail of `Add.simplified` on the extended domain: `Const(const)` is
appended iff `const != 0` (a `nan` sum is appended, since `nan != 0`). -/
def addFinishF (p : List FExpr × PyVal) : FExpr :=
  match (if eqIntV p.2 0 then p.1 else p.1 ++ [.Const (some p.2) none]) with
  | [] => .Const (some (.int 0)) none
  | [a] => a
  | args => .Add args

/-- Inner flattening step of `Mul.simplified` on the extended domain. -/
def mulInnerStepF (acc : List FExpr × PyVal) (s : FExpr) : List FExpr × PyVal :=
  match s with
  | .Const (some v) _ => (acc.1, mulV acc.2 v)
  | s => (acc.1 ++ [s], acc.2)

/-- Main loop step of `Mul.simplified` on the extended domain. -/
def mulStepF (acc : List FExpr × PyVal) (arg : FExpr) : List FExpr × PyVal :=
  match arg with
  | .Const (some v) _ => (acc.1, mulV acc.2 v)
  | .Mul secs => secs.foldl mulInnerStepF acc
  | e => (acc.1 ++ [e], acc.2)

/-- Tail of `Mul.simplified` on the extended domain: the test
`if const == 0: return Const(0)` runs only *after* the folding loop, and a
`nan` product fails it (`nan == 0` is `False`) and also survives the
`const != 1` test, so it is appended as a term. -/
def mulFinishF (p : List FExpr × PyVal) : FExpr :=
  if eqIntV p.2 0 then .Const (some (.int 0)) none
  else
    match (if eqIntV p.2 1 then p.1 else p.1 ++ [.Const (some p.2) none]) with
    | [] => .Const (some (.int 1)) none
    | [a] => a
    | args => .Mul args

mutual

/-- `simplified()` on the extended domain; the accumulators start from the
Python integer literals `0` and `1`. -/
def simplifiedF : FExpr → FExpr
  | .Add args => addFinishF ((simplifiedArgumentsF args).foldl addStepF ([], .int 0))
  | .Mul args => mulFinishF ((simplifiedArgumentsF args).foldl mulStepF ([], .int 1))
  | .Var n => .Var n
  | .Const v s => .Const v s
  | .Div a b => .Div a b
  | .Pow a b => .Pow a b
  | .Neg a => .Neg a
  | .Func n a => .Func n a
  | .Sin a => .Sin a
  | .Cos a => .Cos a
  | .Exp a => .Exp a
  | .Log a => .Log a

/-- `Expr.simplifiedArguments` on the extended domain. -/
def simplifiedArgumentsF : List FExpr → List FExpr
  | [] => []
  | a :: rest => simplifiedF a :: simplifiedArgumentsF rest

end

/-- C5 counterexample: zero absorption fails on the real value domain.
For `x = Const(float('nan'))` the loop computes `const = 1*0 = 0` and then
`const = 0 * nan = nan`; the zero test `if const == 0` runs only after the
loop and `nan == 0` is `False`, so
`simplified(Mul(Const(0), Const(nan)))` is `Const(nan)`, not `Const(0)`. -/
theorem mul_zero_absorption_cex :
    simplifiedF (.Mul [.Const (some (.int 0)) none, .Const (some .nan) none])
        = .Const (some .nan) none ∧
    simplifiedF (.Mul [.Const (some (.int 0)) none, .Const (some .nan) none])
        ≠ .Const (some (.int 0)) none := by
  have h : simplifiedF
      (.Mul [.Const (some (.int 0)) none, .Const (some .nan) none])
      = FExpr.Const (some .nan) none := rfl
  refine ⟨h, ?_⟩
  rw [h]
  simp

end CAS
